import Mathlib

/-!
Shallow embedding of BaconScore.c: a movie-actor graph built by a
line-oriented parser, and a breadth-first search over it computing
Bacon numbers.

In the C source, actors and movies live in two global linked lists
(headActors, headMovies); pointers between the node structures become
list indices here, and the global mutable state becomes an explicit
Store value threaded through each function.
-/

/-- Embedding of struct actorNode: name, list of movie indices the actor
appears in (struct movieList), and the BFS bookkeeping fields. -/
structure ActorN where
  actorName : List Char
  movies : List Nat
  visited : Bool
  level : Int
deriving DecidableEq, Repr

/-- Embedding of struct movieNode: title and cast (struct actorsInMovie),
as a list of actor indices. -/
structure MovieN where
  movieName : List Char
  actors : List Nat
deriving DecidableEq, Repr

/-- The global state: the linked lists headActors and headMovies. -/
structure Store where
  actors : List ActorN
  movies : List MovieN
deriving DecidableEq, Repr

/-- Field read through an actor index (a C pointer dereference).
Out-of-range indices never arise in runs of the C program; the default
is arbitrary. -/
def actorNameAt (st : Store) (i : Nat) : List Char :=
  ((st.actors.get? i).map ActorN.actorName).getD []

/-- The movie list of actor i (actor->movies). -/
def moviesOf (st : Store) (i : Nat) : List Nat :=
  ((st.actors.get? i).map ActorN.movies).getD []

/-- The cast list of movie m (movie->actors). -/
def castOf (st : Store) (m : Nat) : List Nat :=
  ((st.movies.get? m).map MovieN.actors).getD []

/-- visited flag of actor i.  The default `true` makes BFS skip an
out-of-range index, which matches the C program where such an index
cannot occur. -/
def visitedB (st : Store) (i : Nat) : Bool :=
  ((st.actors.get? i).map ActorN.visited).getD true

/-- level field of actor i. -/
def levelI (st : Store) (i : Nat) : Int :=
  ((st.actors.get? i).map ActorN.level).getD 0

/-- containsMovie(line): scans for a ':' character. -/
def containsMovie (line : List Char) : Bool :=
  line.any (fun c => c == ':')

/-- findMovie(line): advances to the first ':', then skips two characters
("GET RID OF SPACE BEFORE ':'"), and returns the rest of the line.
The C code assumes at least the one-space-after-colon convention. -/
def findMovie (line : List Char) : List Char :=
  (line.dropWhile (fun c => c != ':')).drop 2

/-- findActor(actor): walk headActors, return the first index whose
actorName matches (strcmp == 0).  The C returns a node pointer; here the
index plays that role. -/
def findActorAux (nm : List Char) : List ActorN → Nat → Option Nat
  | [], _ => none
  | a :: rest, i => if a.actorName = nm then some i else findActorAux nm rest (i + 1)

/-- findActor over the store. -/
def findActor (st : Store) (nm : List Char) : Option Nat :=
  findActorAux nm st.actors 0

/-- isInLL(actor): same scan as findActor, returning a flag. -/
def isInLL (st : Store) (nm : List Char) : Bool :=
  (findActor st nm).isSome

/-- addMovieToActorsMovies(actor, movie): unconditionally appends the
movie to the tail of the actor's movie list (no duplicate check in the C
code). -/
def addMovieToActorsMovies (st : Store) (i m : Nat) : Store :=
  match st.actors.get? i with
  | some a => { st with actors := st.actors.set i { a with movies := a.movies ++ [m] } }
  | none => st

/-- The cast-walk of addActorToMovie: the C loop runs
`while (curActor->next != NULL)`, comparing names and returning without
adding on a match; when the walk reaches the LAST node the loop exits
without comparing it, and the new entry is appended after it. -/
def castLoop (st : Store) (nm : List Char) (i : Nat) : List Nat → List Nat
  | [] => []
  | [x] => [x, i]
  | x :: y :: xs =>
    if actorNameAt st x = nm then x :: y :: xs
    else x :: castLoop st nm i (y :: xs)

/-- addActorToMovie's update of the cast list: an empty cast becomes the
singleton, otherwise the walk above runs. -/
def castAdd (st : Store) (cast : List Nat) (i : Nat) : List Nat :=
  match cast with
  | [] => [i]
  | x :: xs => castLoop st (actorNameAt st i) i (x :: xs)

/-- addActorToMovie(movie, actor). -/
def addActorToMovie (st : Store) (m i : Nat) : Store :=
  match st.movies.get? m with
  | some mv => { st with movies := st.movies.set m { mv with actors := castAdd st mv.actors i } }
  | none => st

/-- isspace on the characters the C library treats as whitespace. -/
def isSpaceC (c : Char) : Bool :=
  c == ' ' || c == '\t' || c == '\n' || c == '\x0b' || c == '\x0c' || c == '\r'

/-- parseFile's loop body over the lines of the file.  A line is given
without its terminating newline (the C code strips it; a line that was
just "\n" arrives here as [] and is skipped by the isspace test, exactly
as in the C).  `cur` is the current-movie pointer.

The C code delays appending the current movieNode to headMovies until
the next header (or end of input), but actors hold a pointer to that
same node meanwhile; since the node is shared, registering the movie's
index at header time produces the identical final store, including the
end-of-input registration guarded by `movieTitle != NULL` (non-null
exactly when at least one header was seen).

An actor line before any movie header dereferences a NULL movie pointer
in the C code (undefined behavior; the spec calls the dataset
malformed), modeled as `none`. -/
def parseFileAux : List (List Char) → Store → Option Nat → Option Store
  | [], st, _ => some st
  | l :: ls, st, cur =>
    match l with
    | [] => parseFileAux ls st cur
    | c :: _ =>
      if isSpaceC c then parseFileAux ls st cur
      else if containsMovie l then
        parseFileAux ls
          { st with movies := st.movies ++ [{ movieName := findMovie l, actors := [] }] }
          (some st.movies.length)
      else
        match cur with
        | none => none
        | some m =>
          match findActor st l with
          | some i =>
            parseFileAux ls (addActorToMovie (addMovieToActorsMovies st i m) m i) cur
          | none =>
            parseFileAux ls
              (addActorToMovie
                (addMovieToActorsMovies
                  { st with actors := st.actors ++ [{ actorName := l, movies := [], visited := false, level := 0 }] }
                  st.actors.length m)
                m st.actors.length)
              cur

/-- parseFile(file): fold the loop over all lines from the empty store. -/
def parseFile (lines : List (List Char)) : Option Store :=
  parseFileAux lines { actors := [], movies := [] } none

/-- The reset loop at the top of BFS: clear every actor's visited flag
and set every level to -1. -/
def resetAll (st : Store) : Store :=
  { st with actors := st.actors.map (fun a => { a with visited := false, level := -1 }) }

/-- Mark actor i visited with the given level (c->visited = 1;
c->level = lvl). -/
def markActor (st : Store) (i : Nat) (lvl : Int) : Store :=
  match st.actors.get? i with
  | some a => { st with actors := st.actors.set i { a with visited := true, level := lvl } }
  | none => st

/-- The inner cast loop of BFS: for each co-star c of the current movie,
if unvisited then mark it with level aLvl+1; if it is the target return
that level at once, otherwise enqueue it.  `.inl` is the early return
from BFS (value and state at that moment), `.inr` continues with the
updated state and queue. -/
def procCast (st : Store) (q : List Nat) (t : Nat) (aLvl : Int) :
    List Nat → Sum (Int × Store) (Store × List Nat)
  | [] => .inr (st, q)
  | c :: cs =>
    if visitedB st c then procCast st q t aLvl cs
    else
      if c = t then .inl (aLvl + 1, markActor st c (aLvl + 1))
      else procCast (markActor st c (aLvl + 1)) (q ++ [c]) t aLvl cs

/-- The middle loop of BFS: over all movies of the dequeued actor. -/
def procMovies (st : Store) (q : List Nat) (t : Nat) (aLvl : Int) :
    List Nat → Sum (Int × Store) (Store × List Nat)
  | [] => .inr (st, q)
  | m :: ms =>
    match procCast st q t aLvl (castOf st m) with
    | .inl r => .inl r
    | .inr (st', q') => procMovies st' q' t aLvl ms

/-- The outer while(q != NULL) loop of BFS.  The C loop needs no fuel;
the fuel is a model artifact and `bfsLoop_isSome` below shows that the
fuel BFS supplies is never exhausted, because an actor is marked visited
before being enqueued and so is enqueued at most once. -/
def bfsLoop (t : Nat) : Nat → List Nat → Store → Option (Int × Store)
  | _, [], st => some (-1, st)
  | 0, _ :: _, _ => none
  | fuel + 1, a :: q, st =>
    match procMovies st q t (levelI st a) (moviesOf st a) with
    | .inl r => some r
    | .inr (st', q') => bfsLoop t fuel q' st'

/-- BFS(start, target): identity short-circuit, full reset, mark and
enqueue the start, then the traversal.  Returns the final value of the
C function together with the state it leaves behind. -/
def BFS (st : Store) (s t : Nat) : Option (Int × Store) :=
  if s = t then some (0, st)
  else bfsLoop t st.actors.length [s] (markActor (resetAll st) s 0)

/-- The anchor name used by main. -/
def kevinBacon : List Char := "Kevin Bacon".data

/-- The three outcomes one query can produce in main: the stderr
resolution error, the "Score: No Bacon!" line, or a "Score: d" line. -/
inductive QueryOut where
  | err : QueryOut
  | noBacon : QueryOut
  | score : Int → QueryOut
deriving DecidableEq, Repr

/-- One iteration of main's query loop: resolve the queried name; if
absent report the resolution error; otherwise look up Kevin Bacon and
short-circuit to "No Bacon!" if he is absent; otherwise run BFS and
report -1 as "No Bacon!" and anything else as the score. -/
def processQuery (st : Store) (nm : List Char) : Option (QueryOut × Store) :=
  match findActor st nm with
  | none => some (.err, st)
  | some tIdx =>
    match findActor st kevinBacon with
    | none => some (.noBacon, st)
    | some bIdx =>
      match BFS st bIdx tIdx with
      | none => none
      | some (r, st') => some (if r = -1 then .noBacon else .score r, st')

/-- Two actors are adjacent when one lists a movie whose cast contains
the other: this is the shared-movie hop relation BFS traverses. -/
def adj (st : Store) (i j : Nat) : Prop :=
  j < st.actors.length ∧ ∃ m ∈ moviesOf st i, j ∈ castOf st m

instance (st : Store) (i j : Nat) : Decidable (adj st i j) := by
  unfold adj; infer_instance

/-- pathN st n a b: there is a walk of exactly n shared-movie hops from
a to b. -/
def pathN (st : Store) : Nat → Nat → Nat → Prop
  | 0, a, b => a = b
  | n + 1, a, b => ∃ c, pathN st n a c ∧ adj st c b

/-- d is the shortest shared-movie distance from a to b. -/
def isDist (st : Store) (a b d : Nat) : Prop :=
  pathN st d a b ∧ ∀ j, pathN st j a b → d ≤ j

/-- The structural part of an actor node: everything except the mutable
search-state fields visited and level. -/
def stripA (a : ActorN) : List Char × List Nat :=
  (a.actorName, a.movies)

/-- Two stores with the same graph structure, differing at most in the
visited/level scratch fields. -/
def sameStruct (st st' : Store) : Prop :=
  st.movies = st'.movies ∧ st.actors.map stripA = st'.actors.map stripA

/-- Number of actors still unvisited: the quantity that bounds how many
enqueues BFS can still perform. -/
def unvisitedCount (st : Store) : Nat :=
  st.actors.countP (fun a => !a.visited)

/-- Invariant before each dequeue of the BFS loop, for a search from s
towards t: every visited actor's level is its exact distance from s, the
queue holds visited in-range actors in nondecreasing level order spanning
at most two consecutive levels, every visited actor not in the queue has
all its neighbours visited, and the target is still unvisited. -/
structure BfsInv (st : Store) (q : List Nat) (s t : Nat) : Prop where
  vs : visitedB st s = true
  exact_level : ∀ v, v < st.actors.length → visitedB st v = true →
    ∃ dv : Nat, levelI st v = (dv : Int) ∧ isDist st s v dv
  qvis : ∀ v ∈ q, visitedB st v = true
  qlt : ∀ v ∈ q, v < st.actors.length
  closed : ∀ v, visitedB st v = true → v ∉ q → ∀ u, adj st v u → visitedB st u = true
  sorted : q.Pairwise (fun u v => levelI st u ≤ levelI st v)
  band : ∃ L : Int, ∀ v ∈ q, L ≤ levelI st v ∧ levelI st v ≤ L + 1
  tunv : visitedB st t = false

/-- Invariant while the dequeued actor a, at exact distance La from s,
is being expanded. -/
structure BfsMid (st : Store) (q : List Nat) (s t a : Nat) (La : Nat) : Prop where
  vs : visitedB st s = true
  exact_level : ∀ v, v < st.actors.length → visitedB st v = true →
    ∃ dv : Nat, levelI st v = (dv : Int) ∧ isDist st s v dv
  qvis : ∀ v ∈ q, visitedB st v = true
  qlt : ∀ v ∈ q, v < st.actors.length
  closed : ∀ v, visitedB st v = true → v ∉ q → v ≠ a → ∀ u, adj st v u → visitedB st u = true
  sorted : q.Pairwise (fun u v => levelI st u ≤ levelI st v)
  band : ∀ v ∈ q, ((La : Int) ≤ levelI st v ∧ levelI st v ≤ (La : Int) + 1)
  alev : levelI st a = (La : Int)
  avis : visitedB st a = true
  alt : a < st.actors.length
  tunv : visitedB st t = false

/-- The invariants of a parsed store: actor names are unique, membership
is bidirectional (an actor lists a movie exactly when the movie's cast
lists the actor), and all cross-references are in range. -/
structure StoreWF (st : Store) : Prop where
  nodupNames : (st.actors.map ActorN.actorName).Nodup
  memCast : ∀ a m, m ∈ moviesOf st a → a ∈ castOf st m
  memMovies : ∀ a m, a ∈ castOf st m → m ∈ moviesOf st a
  movieLt : ∀ a m, m ∈ moviesOf st a → m < st.movies.length
  castLt : ∀ m i, i ∈ castOf st m → i < st.actors.length

def twoActorLines : List (List Char) := ["Movie: M".data, "A".data, "B".data]

def twoActorStore : Store :=
  { actors := [{ actorName := "A".data, movies := [0], visited := false, level := 0 },
               { actorName := "B".data, movies := [0], visited := false, level := 0 }],
    movies := [{ movieName := "M".data, actors := [0, 1] }] }

def dupLines : List (List Char) := ["Movie: M".data, "A".data, "A".data]

def dupStore : Store := (parseFile dupLines).getD { actors := [], movies := [] }

def noBaconLines : List (List Char) := ["Movie: M".data, "A".data]

def noBaconStore : Store := (parseFile noBaconLines).getD { actors := [], movies := [] }

def isolatedStore : Store :=
  { actors := [{ actorName := kevinBacon, movies := [], visited := false, level := 0 },
               { actorName := "X".data, movies := [], visited := false, level := 0 }],
    movies := [] }

/-! Basic lemmas about list access and the store operations. -/

theorem get?_some_lt {α : Type} {l : List α} {n : Nat} {a : α}
    (h : l.get? n = some a) : n < l.length := by
  by_contra hn
  rw [List.get?_len_le (Nat.le_of_not_lt hn)] at h
  exact Option.noConfusion h

theorem countP_set_get {α : Type} (p : α → Bool) (l : List α) (i : Nat) (x a : α)
    (h : l.get? i = some a) :
    (l.set i x).countP p + (cond (p a) 1 0) = l.countP p + (cond (p x) 1 0) := by
  induction l generalizing i with
  | nil => simp at h
  | cons b l ih =>
    cases i with
    | zero =>
      simp only [List.get?] at h
      cases h
      simp only [List.set, List.countP_cons]
      cases p a <;> cases p x <;> simp <;> omega
    | succ n =>
      simp only [List.get?] at h
      simp only [List.set, List.countP_cons]
      have := ih n h
      cases p b <;> simp <;> omega

theorem sameStruct_refl (st : Store) : sameStruct st st := ⟨rfl, rfl⟩

theorem sameStruct_trans {s1 s2 s3 : Store} (h1 : sameStruct s1 s2)
    (h2 : sameStruct s2 s3) : sameStruct s1 s3 :=
  ⟨h1.1.trans h2.1, h1.2.trans h2.2⟩

theorem sameStruct_length {s1 s2 : Store} (h : sameStruct s1 s2) :
    s1.actors.length = s2.actors.length := by
  have := congrArg List.length h.2
  simpa using this

theorem sameStruct_stripA_get? {s1 s2 : Store} (h : sameStruct s1 s2) (i : Nat) :
    (s1.actors.get? i).map stripA = (s2.actors.get? i).map stripA := by
  rw [← List.get?_map, ← List.get?_map, h.2]

theorem sameStruct_moviesOf {s1 s2 : Store} (h : sameStruct s1 s2) :
    moviesOf s1 = moviesOf s2 := by
  funext i
  have hs := sameStruct_stripA_get? h i
  unfold moviesOf
  cases h1 : s1.actors.get? i <;> cases h2 : s2.actors.get? i <;>
    rw [h1, h2] at hs <;> simp_all [stripA]

theorem sameStruct_actorNameAt {s1 s2 : Store} (h : sameStruct s1 s2) :
    actorNameAt s1 = actorNameAt s2 := by
  funext i
  have hs := sameStruct_stripA_get? h i
  unfold actorNameAt
  cases h1 : s1.actors.get? i <;> cases h2 : s2.actors.get? i <;>
    rw [h1, h2] at hs <;> simp_all [stripA]

theorem sameStruct_castOf {s1 s2 : Store} (h : sameStruct s1 s2) :
    castOf s1 = castOf s2 := by
  funext m
  unfold castOf
  rw [h.1]

theorem sameStruct_adj {s1 s2 : Store} (h : sameStruct s1 s2) :
    adj s1 = adj s2 := by
  funext i j
  unfold adj
  rw [sameStruct_moviesOf h, sameStruct_castOf h, sameStruct_length h]

theorem sameStruct_pathN {s1 s2 : Store} (h : sameStruct s1 s2) :
    pathN s1 = pathN s2 := by
  funext n
  induction n with
  | zero => rfl
  | succ n ih =>
    funext a b
    show (∃ c, pathN s1 n a c ∧ adj s1 c b) = (∃ c, pathN s2 n a c ∧ adj s2 c b)
    rw [ih, sameStruct_adj h]

theorem sameStruct_isDist {s1 s2 : Store} (h : sameStruct s1 s2) :
    isDist s1 = isDist s2 := by
  funext a b d
  unfold isDist
  rw [sameStruct_pathN h]

theorem markActor_sameStruct (st : Store) (i : Nat) (lvl : Int) :
    sameStruct st (markActor st i lvl) := by
  unfold markActor
  cases h : st.actors.get? i with
  | none => exact sameStruct_refl st
  | some a =>
    refine ⟨rfl, ?_⟩
    apply List.ext_get?
    intro j
    rw [List.get?_map, List.get?_map]
    by_cases hj : i = j
    · subst hj
      rw [List.get?_set_eq_of_lt _ (get?_some_lt h), h]
      simp [stripA]
    · rw [List.get?_set_ne _ _ hj]

theorem resetAll_sameStruct (st : Store) : sameStruct st (resetAll st) := by
  refine ⟨rfl, ?_⟩
  unfold resetAll
  simp only [List.map_map]
  rfl

theorem resetAll_length (st : Store) : (resetAll st).actors.length = st.actors.length := by
  simp [resetAll]

theorem sameStruct_resetAll_eq {s1 s2 : Store} (h : sameStruct s1 s2) :
    resetAll s1 = resetAll s2 := by
  unfold resetAll
  have hm : s1.movies = s2.movies := h.1
  have ha : s1.actors.map (fun a => { a with visited := false, level := -1 }) =
      s2.actors.map (fun a => { a with visited := false, level := -1 }) := by
    have : ∀ l : List ActorN,
        l.map (fun a => ({ a with visited := false, level := -1 } : ActorN)) =
        (l.map stripA).map (fun p => ⟨p.1, p.2, false, -1⟩) := by
      intro l
      rw [List.map_map]
      rfl
    rw [this, this, h.2]
  rw [hm, ha]

theorem visitedB_resetAll {st : Store} {j : Nat} (h : j < st.actors.length) :
    visitedB (resetAll st) j = false := by
  simp [visitedB, resetAll, List.get?_map, List.getElem?_eq_getElem h]

theorem levelI_resetAll {st : Store} {j : Nat} (h : j < st.actors.length) :
    levelI (resetAll st) j = -1 := by
  simp [levelI, resetAll, List.get?_map, List.getElem?_eq_getElem h]

theorem markActor_oob {st : Store} {i : Nat} {lvl : Int}
    (h : st.actors.length ≤ i) : markActor st i lvl = st := by
  unfold markActor
  rw [List.get?_len_le h]

theorem visitedB_false_get {st : Store} {i : Nat} (h : visitedB st i = false) :
    ∃ a, st.actors.get? i = some a ∧ a.visited = false := by
  unfold visitedB at h
  cases hg : st.actors.get? i with
  | none => rw [hg] at h; simp at h
  | some a => rw [hg] at h; exact ⟨a, rfl, by simpa using h⟩

theorem visitedB_false_lt {st : Store} {i : Nat} (h : visitedB st i = false) :
    i < st.actors.length := by
  obtain ⟨a, hg, -⟩ := visitedB_false_get h
  exact get?_some_lt hg

theorem visitedB_markActor_self {st : Store} {i : Nat} {lvl : Int}
    (h : i < st.actors.length) : visitedB (markActor st i lvl) i = true := by
  unfold markActor
  cases hg : st.actors.get? i with
  | none => exact absurd (List.get?_eq_get h) (by rw [hg]; simp)
  | some a => simp [visitedB, List.getElem?_set_eq h]

theorem levelI_markActor_self {st : Store} {i : Nat} {lvl : Int}
    (h : i < st.actors.length) : levelI (markActor st i lvl) i = lvl := by
  unfold markActor
  cases hg : st.actors.get? i with
  | none => exact absurd (List.get?_eq_get h) (by rw [hg]; simp)
  | some a => simp [levelI, List.getElem?_set_eq h]

theorem visitedB_markActor_other {st : Store} {i j : Nat} {lvl : Int}
    (h : j ≠ i) : visitedB (markActor st i lvl) j = visitedB st j := by
  unfold markActor
  cases hg : st.actors.get? i with
  | none => rfl
  | some a => simp [visitedB, List.getElem?_set_ne (Ne.symm h)]

theorem levelI_markActor_other {st : Store} {i j : Nat} {lvl : Int}
    (h : j ≠ i) : levelI (markActor st i lvl) j = levelI st j := by
  unfold markActor
  cases hg : st.actors.get? i with
  | none => rfl
  | some a => simp [levelI, List.getElem?_set_ne (Ne.symm h)]

theorem visitedB_markActor_mono {st : Store} {i v : Nat} {lvl : Int}
    (h : visitedB st v = true) : visitedB (markActor st i lvl) v = true := by
  by_cases hv : v = i
  · subst hv
    by_cases hl : v < st.actors.length
    · exact visitedB_markActor_self hl
    · rw [markActor_oob (Nat.le_of_not_lt hl)]; exact h
  · rw [visitedB_markActor_other hv]; exact h

theorem unvisitedCount_markActor {st : Store} {c : Nat} {lvl : Int}
    (hc : visitedB st c = false) :
    unvisitedCount (markActor st c lvl) + 1 = unvisitedCount st := by
  obtain ⟨a, hg, ha⟩ := visitedB_false_get hc
  unfold markActor
  rw [hg]
  unfold unvisitedCount
  have := countP_set_get (fun x => !x.visited) st.actors c
    { a with visited := true, level := lvl } a hg
  simp only [ha] at this
  simpa using this

/-! Fuel sufficiency: each enqueue is paired with marking an unvisited
actor visited, so unvisitedCount plus the queue length never grows and
strictly drops at every dequeue. -/

theorem procCast_count {t : Nat} {aLvl : Int} :
    ∀ (cs : List Nat) (st : Store) (q : List Nat) (st2 : Store) (q2 : List Nat),
      procCast st q t aLvl cs = .inr (st2, q2) →
      unvisitedCount st2 + q2.length = unvisitedCount st + q.length := by
  intro cs
  induction cs with
  | nil =>
    intro st q st2 q2 h
    simp only [procCast] at h
    cases h
    rfl
  | cons c cs ih =>
    intro st q st2 q2 h
    simp only [procCast] at h
    by_cases hv : visitedB st c
    · rw [if_pos hv] at h
      exact ih st q st2 q2 h
    · rw [if_neg hv] at h
      by_cases hct : c = t
      · rw [if_pos hct] at h
        exact absurd h (by simp)
      · rw [if_neg hct] at h
        have := ih _ _ _ _ h
        rw [this]
        have hm : unvisitedCount (markActor st c (aLvl + 1)) + 1 = unvisitedCount st :=
          unvisitedCount_markActor (Bool.not_eq_true _ ▸ hv)
        simp only [List.length_append, List.length_singleton]
        omega

theorem procMovies_count {t : Nat} {aLvl : Int} :
    ∀ (ms : List Nat) (st : Store) (q : List Nat) (st2 : Store) (q2 : List Nat),
      procMovies st q t aLvl ms = .inr (st2, q2) →
      unvisitedCount st2 + q2.length = unvisitedCount st + q.length := by
  intro ms
  induction ms with
  | nil =>
    intro st q st2 q2 h
    simp only [procMovies] at h
    cases h
    rfl
  | cons m ms ih =>
    intro st q st2 q2 h
    simp only [procMovies] at h
    cases hp : procCast st q t aLvl (castOf st m) with
    | inl r => rw [hp] at h; exact absurd h (by simp)
    | inr p =>
      rw [hp] at h
      have h1 := procCast_count _ _ _ _ _ hp
      have h2 := ih _ _ _ _ h
      omega

theorem bfsLoop_isSome {t : Nat} :
    ∀ (fuel : Nat) (q : List Nat) (st : Store),
      unvisitedCount st + q.length ≤ fuel → (bfsLoop t fuel q st).isSome := by
  intro fuel
  induction fuel with
  | zero =>
    intro q st h
    cases q with
    | nil => simp [bfsLoop]
    | cons a q => simp at h
  | succ fuel ih =>
    intro q st h
    cases q with
    | nil => simp [bfsLoop]
    | cons a q =>
      simp only [bfsLoop]
      cases hp : procMovies st q t (levelI st a) (moviesOf st a) with
      | inl r => simp
      | inr p =>
        have hc := procMovies_count _ _ _ _ _ hp
        apply ih
        simp only [List.length_cons] at h
        omega

theorem unvisitedCount_resetAll (st : Store) :
    unvisitedCount (resetAll st) = st.actors.length := by
  unfold unvisitedCount resetAll
  simp [List.countP_map]

/-- BFS never runs out of the fuel the model gives it: with a valid
start actor the traversal always produces a result. -/
theorem BFS_isSome {st : Store} {s : Nat} (t : Nat)
    (hs : s < st.actors.length) : (BFS st s t).isSome := by
  unfold BFS
  by_cases hst : s = t
  · simp [hst]
  · rw [if_neg hst]
    apply bfsLoop_isSome
    have h1 : visitedB (resetAll st) s = false := visitedB_resetAll hs
    have h2 : unvisitedCount (markActor (resetAll st) s 0) + 1 =
        unvisitedCount (resetAll st) := unvisitedCount_markActor h1
    rw [unvisitedCount_resetAll] at h2
    simp only [List.length_singleton]
    omega

/-! BFS correctness: the level assigned at first discovery is the exact
shortest shared-movie distance.  `Inv` is the invariant holding before
every dequeue, `Mid` the variant holding while the dequeued actor `a`
(whose exact distance is `La`) is being expanded. -/

theorem pathN_zero {st : Store} {a b : Nat} : pathN st 0 a b ↔ a = b := Iff.rfl

theorem pathN_succ {st : Store} {n : Nat} {a b : Nat} :
    pathN st (n + 1) a b ↔ ∃ c, pathN st n a c ∧ adj st c b := Iff.rfl

theorem adj_src_lt {st : Store} {c u : Nat} (h : adj st c u) :
    c < st.actors.length := by
  obtain ⟨-, m, hm, -⟩ := h
  unfold moviesOf at hm
  cases hg : st.actors.get? c with
  | none => rw [hg] at hm; simp at hm
  | some a => exact get?_some_lt hg

theorem markActor_length (st : Store) (i : Nat) (lvl : Int) :
    (markActor st i lvl).actors.length = st.actors.length :=
  (sameStruct_length (markActor_sameStruct st i lvl)).symm

/-- Lower bound at discovery time: while a (at distance La) is being
expanded, no walk from s of length at most La can end at a still
unvisited actor, because everything at distance below La is already
expanded and the queue only holds levels La and La+1. -/
theorem key_lemma {st : Store} {q : List Nat} {s t a : Nat} {La : Nat}
    (M : BfsMid st q s t a La) :
    ∀ (j : Nat) (u : Nat), visitedB st u = false → pathN st j s u → La + 1 ≤ j := by
  intro j
  induction j with
  | zero =>
    intro u hu hp
    rw [pathN_zero] at hp
    subst hp
    rw [M.vs] at hu
    exact Bool.noConfusion hu
  | succ j ih =>
    intro u hu hp
    rw [pathN_succ] at hp
    obtain ⟨c, pc, hadj⟩ := hp
    have hclt : c < st.actors.length := adj_src_lt hadj
    by_cases hv : visitedB st c = true
    · obtain ⟨dc, hlc, hdc⟩ := M.exact_level c hclt hv
      have hdcj : dc ≤ j := hdc.2 j pc
      by_cases hcq : c ∈ q
      · have hb := (M.band c hcq).1
        rw [hlc] at hb
        have : La ≤ dc := by exact_mod_cast hb
        omega
      · by_cases hca : c = a
        · subst hca
          have : (dc : Int) = (La : Int) := by rw [← hlc, M.alev]
          have : dc = La := by exact_mod_cast this
          omega
        · have := M.closed c hv hcq hca u hadj
          rw [this] at hu
          exact Bool.noConfusion hu
    · have := ih c (Bool.not_eq_true _ ▸ hv) pc
      omega

/-- Marking an unvisited neighbour of the current actor assigns it its
exact distance La+1. -/
theorem mark_isDist {st : Store} {q : List Nat} {s t a : Nat} {La : Nat} {c : Nat}
    (M : BfsMid st q s t a La) (hc : visitedB st c = false) (hadj : adj st a c) :
    isDist (markActor st c ((La : Int) + 1)) s c (La + 1) := by
  have hstr := markActor_sameStruct st c ((La : Int) + 1)
  rw [← sameStruct_isDist hstr]
  constructor
  · rw [pathN_succ]
    obtain ⟨da, hla, hda⟩ := M.exact_level a M.alt M.avis
    have : da = La := by
      have : (da : Int) = (La : Int) := by rw [← hla, M.alev]
      exact_mod_cast this
    subst this
    exact ⟨a, hda.1, hadj⟩
  · exact fun j hj => key_lemma M j c hc hj

/-- Re-establishing the expansion invariant after marking and enqueueing
an unvisited non-target co-star. -/
theorem mid_mark {st : Store} {q : List Nat} {s t a : Nat} {La : Nat} {c : Nat}
    (M : BfsMid st q s t a La) (hc : visitedB st c = false) (hadj : adj st a c)
    (hct : c ≠ t) :
    BfsMid (markActor st c ((La : Int) + 1)) (q ++ [c]) s t a La := by
  have hclt : c < st.actors.length := visitedB_false_lt hc
  have hstr := markActor_sameStruct st c ((La : Int) + 1)
  have hlen := markActor_length st c ((La : Int) + 1)
  have hqc : ∀ v ∈ q, v ≠ c := by
    intro v hv he
    subst he
    rw [M.qvis v hv] at hc
    exact Bool.noConfusion hc
  have hac : a ≠ c := by
    intro he
    subst he
    rw [M.avis] at hc
    exact Bool.noConfusion hc
  have hqpres : ∀ v ∈ q, levelI (markActor st c ((La : Int) + 1)) v = levelI st v :=
    fun v hv => levelI_markActor_other (hqc v hv)
  refine ⟨?_, ?_, ?_, ?_, ?_, ?_, ?_, ?_, ?_, ?_, ?_⟩
  · exact visitedB_markActor_mono M.vs
  · intro v hvlt hvv
    by_cases hvc : v = c
    · subst hvc
      refine ⟨La + 1, ?_, mark_isDist M hc hadj⟩
      rw [levelI_markActor_self hclt]
      push_cast
      ring
    · rw [visitedB_markActor_other hvc] at hvv
      rw [hlen] at hvlt
      obtain ⟨dv, hl, hd⟩ := M.exact_level v hvlt hvv
      refine ⟨dv, ?_, ?_⟩
      · rw [levelI_markActor_other hvc]; exact hl
      · rw [← sameStruct_isDist hstr]; exact hd
  · intro v hv
    rcases List.mem_append.mp hv with h | h
    · exact visitedB_markActor_mono (M.qvis v h)
    · rw [List.mem_singleton] at h
      subst h
      exact visitedB_markActor_self hclt
  · intro v hv
    rw [hlen]
    rcases List.mem_append.mp hv with h | h
    · exact M.qlt v h
    · rw [List.mem_singleton] at h
      subst h
      exact hclt
  · intro v hv hnq hna u hadju
    have hvc : v ≠ c := by
      intro he
      subst he
      exact hnq (List.mem_append.mpr (Or.inr (List.mem_singleton.mpr rfl)))
    rw [visitedB_markActor_other hvc] at hv
    have hnq' : v ∉ q := fun h => hnq (List.mem_append.mpr (Or.inl h))
    rw [← sameStruct_adj hstr] at hadju
    exact visitedB_markActor_mono (M.closed v hv hnq' hna u hadju)
  · rw [List.pairwise_append]
    refine ⟨?_, List.pairwise_singleton _ _, ?_⟩
    · exact List.Pairwise.imp_of_mem
        (fun ha hb hr => by rw [hqpres _ ha, hqpres _ hb]; exact hr) M.sorted
    · intro u hu v hv
      rw [List.mem_singleton] at hv
      subst hv
      rw [hqpres u hu, levelI_markActor_self hclt]
      exact (M.band u hu).2
  · intro v hv
    rcases List.mem_append.mp hv with h | h
    · rw [hqpres v h]
      exact ⟨(M.band v h).1, le_trans (M.band v h).2 (by omega)⟩
    · rw [List.mem_singleton] at h
      subst h
      rw [levelI_markActor_self hclt]
      omega
  · rw [levelI_markActor_other hac]
    exact M.alev
  · exact visitedB_markActor_mono M.avis
  · rw [hlen]; exact M.alt
  · rw [visitedB_markActor_other (Ne.symm hct)]
    exact M.tunv

/-- Full specification of the inner cast loop: either the target is
discovered, in which case the returned value is its exact distance
La+1, or the loop completes with the expansion invariant intact, all
listed co-stars visited, and visitedness only growing. -/
theorem procCast_spec {s t a : Nat} {La : Nat} :
    ∀ (cs : List Nat) (st : Store) (q : List Nat),
      BfsMid st q s t a La →
      (∀ c ∈ cs, c < st.actors.length → adj st a c) →
      ((∃ r st2, procCast st q t ((La : Int)) cs = .inl (r, st2) ∧ sameStruct st st2 ∧
          r = ((La + 1 : Nat) : Int) ∧ isDist st2 s t (La + 1)) ∨
       (∃ st2 q2, procCast st q t ((La : Int)) cs = .inr (st2, q2) ∧ sameStruct st st2 ∧
          BfsMid st2 q2 s t a La ∧
          (∀ c ∈ cs, visitedB st2 c = true) ∧
          (∀ v, visitedB st v = true → visitedB st2 v = true))) := by
  intro cs
  induction cs with
  | nil =>
    intro st q M _
    right
    exact ⟨st, q, rfl, sameStruct_refl st, M, by simp, fun v hv => hv⟩
  | cons c cs ih =>
    intro st q M hadj
    by_cases hv : visitedB st c = true
    · have hred : procCast st q t ((La : Int)) (c :: cs) = procCast st q t ((La : Int)) cs := by
        simp [procCast, hv]
      rw [hred]
      rcases ih st q M (fun x hx => hadj x (List.mem_cons_of_mem c hx)) with
        ⟨r, st2, heq, hstr, hr, hd⟩ | ⟨st2, q2, heq, hstr, M2, hall, hmono⟩
      · exact Or.inl ⟨r, st2, heq, hstr, hr, hd⟩
      · refine Or.inr ⟨st2, q2, heq, hstr, M2, ?_, hmono⟩
        intro x hx
        rcases List.mem_cons.mp hx with h | h
        · subst h; exact hmono x hv
        · exact hall x h
    · have hvf : visitedB st c = false := Bool.not_eq_true _ ▸ hv
      have hclt : c < st.actors.length := visitedB_false_lt hvf
      have hadjc : adj st a c := hadj c (List.mem_cons_self c cs) hclt
      by_cases hct : c = t
      · left
        subst hct
        refine ⟨(La : Int) + 1, markActor st c ((La : Int) + 1), ?_,
          markActor_sameStruct st c ((La : Int) + 1), by push_cast; ring,
          mark_isDist M hvf hadjc⟩
        simp [procCast, hvf]
      · have hred : procCast st q t ((La : Int)) (c :: cs) =
            procCast (markActor st c ((La : Int) + 1)) (q ++ [c]) t ((La : Int)) cs := by
          simp [procCast, hvf, hct]
        rw [hred]
        have M' := mid_mark M hvf hadjc hct
        have hstr1 := markActor_sameStruct st c ((La : Int) + 1)
        have hadj' : ∀ x ∈ cs, x < (markActor st c ((La : Int) + 1)).actors.length →
            adj (markActor st c ((La : Int) + 1)) a x := by
          intro x hx hxlt
          rw [← sameStruct_adj hstr1]
          rw [markActor_length] at hxlt
          exact hadj x (List.mem_cons_of_mem c hx) hxlt
        rcases ih _ _ M' hadj' with
          ⟨r, st2, heq, hstr, hr, hd⟩ | ⟨st2, q2, heq, hstr, M2, hall, hmono⟩
        · exact Or.inl ⟨r, st2, heq, sameStruct_trans hstr1 hstr, hr, hd⟩
        · refine Or.inr ⟨st2, q2, heq, sameStruct_trans hstr1 hstr, M2, ?_, ?_⟩
          · intro x hx
            rcases List.mem_cons.mp hx with h | h
            · subst h
              exact hmono x (visitedB_markActor_self hclt)
            · exact hall x h
          · intro x hx
            exact hmono x (visitedB_markActor_mono hx)

/-- Specification of the movie loop: either the target is discovered at
its exact distance La+1, or every co-star through every listed movie is
visited and the expansion invariant holds. -/
theorem procMovies_spec {s t a : Nat} {La : Nat} :
    ∀ (ms : List Nat) (st : Store) (q : List Nat),
      BfsMid st q s t a La →
      (∀ m ∈ ms, ∀ c ∈ castOf st m, c < st.actors.length → adj st a c) →
      ((∃ r st2, procMovies st q t ((La : Int)) ms = .inl (r, st2) ∧ sameStruct st st2 ∧
          r = ((La + 1 : Nat) : Int) ∧ isDist st2 s t (La + 1)) ∨
       (∃ st2 q2, procMovies st q t ((La : Int)) ms = .inr (st2, q2) ∧ sameStruct st st2 ∧
          BfsMid st2 q2 s t a La ∧
          (∀ m ∈ ms, ∀ c ∈ castOf st m, visitedB st2 c = true) ∧
          (∀ v, visitedB st v = true → visitedB st2 v = true))) := by
  intro ms
  induction ms with
  | nil =>
    intro st q M _
    right
    exact ⟨st, q, rfl, sameStruct_refl st, M, by simp, fun v hv => hv⟩
  | cons m ms ih =>
    intro st q M hadj
    rcases procCast_spec (castOf st m) st q M
        (hadj m (List.mem_cons_self m ms)) with
      ⟨r, st1, heq, hstr, hr, hd⟩ | ⟨st1, q1, heq, hstr, M1, hall, hmono⟩
    · left
      refine ⟨r, st1, ?_, hstr, hr, hd⟩
      simp only [procMovies, heq]
    · have hcast1 : castOf st1 = castOf st := (sameStruct_castOf hstr).symm
      have hadj1 : ∀ x ∈ ms, ∀ c ∈ castOf st1 x, c < st1.actors.length →
          adj st1 a c := by
        intro x hx c hc hlt
        rw [hcast1] at hc
        rw [← sameStruct_length hstr] at hlt
        rw [← sameStruct_adj hstr]
        exact hadj x (List.mem_cons_of_mem m hx) c hc hlt
      rcases ih st1 q1 M1 hadj1 with
        ⟨r, st2, heq2, hstr2, hr, hd⟩ | ⟨st2, q2, heq2, hstr2, M2, hall2, hmono2⟩
      · left
        refine ⟨r, st2, ?_, sameStruct_trans hstr hstr2, hr, hd⟩
        simp only [procMovies, heq, heq2]
      · right
        refine ⟨st2, q2, ?_, sameStruct_trans hstr hstr2, M2, ?_, ?_⟩
        · simp only [procMovies, heq, heq2]
        · intro x hx c hc
          rcases List.mem_cons.mp hx with h | h
          · subst h
            exact hmono2 c (hall c hc)
          · rw [← hcast1] at hc
            exact hall2 x h c hc
        · intro v hv
          exact hmono2 v (hmono v hv)

/-- When the queue has emptied, the visited set is closed under
adjacency and contains s, hence contains everything reachable from s. -/
theorem reach_visited {st : Store} {s t : Nat} (I : BfsInv st [] s t) :
    ∀ (k u : Nat), pathN st k s u → visitedB st u = true := by
  intro k
  induction k with
  | zero =>
    intro u hp
    rw [pathN_zero] at hp
    subst hp
    exact I.vs
  | succ k ih =>
    intro u hp
    rw [pathN_succ] at hp
    obtain ⟨c, pc, hadj⟩ := hp
    exact I.closed c (ih c pc) (List.not_mem_nil c) u hadj

/-- Specification of the outer BFS loop: under the dequeue invariant and
with sufficient fuel, the loop terminates with either the unreachable
sentinel -1 (and then no walk of any length links s to t) or the exact
shortest distance. -/
theorem bfsLoop_spec {s t : Nat} :
    ∀ (fuel : Nat) (q : List Nat) (st : Store),
      BfsInv st q s t →
      unvisitedCount st + q.length ≤ fuel →
      ∃ r st2, bfsLoop t fuel q st = some (r, st2) ∧ sameStruct st st2 ∧
        ((r = -1 ∧ ∀ k, ¬ pathN st k s t) ∨ (∃ d : Nat, r = (d : Int) ∧ isDist st s t d)) := by
  intro fuel
  induction fuel with
  | zero =>
    intro q st I hfuel
    cases q with
    | nil =>
      refine ⟨-1, st, by simp [bfsLoop], sameStruct_refl st, Or.inl ⟨rfl, ?_⟩⟩
      intro k hp
      have := reach_visited I k t hp
      rw [I.tunv] at this
      exact Bool.noConfusion this
    | cons a q0 => simp at hfuel
  | succ fuel ih =>
    intro q st I hfuel
    cases q with
    | nil =>
      refine ⟨-1, st, by simp [bfsLoop], sameStruct_refl st, Or.inl ⟨rfl, ?_⟩⟩
      intro k hp
      have := reach_visited I k t hp
      rw [I.tunv] at this
      exact Bool.noConfusion this
    | cons a q0 =>
      have hamem : a ∈ a :: q0 := List.mem_cons_self a q0
      have halt := I.qlt a hamem
      have havis := I.qvis a hamem
      obtain ⟨da, hla, hda⟩ := I.exact_level a halt havis
      have hsort := List.pairwise_cons.mp I.sorted
      have M : BfsMid st q0 s t a da := by
        refine ⟨I.vs, I.exact_level, ?_, ?_, ?_, hsort.2, ?_, hla, havis, halt, I.tunv⟩
        · exact fun v hv => I.qvis v (List.mem_cons_of_mem a hv)
        · exact fun v hv => I.qlt v (List.mem_cons_of_mem a hv)
        · intro v hv hnq hna u hadj
          refine I.closed v hv ?_ u hadj
          intro hmem
          rcases List.mem_cons.mp hmem with h | h
          · exact hna h
          · exact hnq h
        · intro v hv
          constructor
          · rw [← hla]
            exact hsort.1 v hv
          · obtain ⟨L, hL⟩ := I.band
            have h1 := (hL a hamem).1
            have h2 := (hL v (List.mem_cons_of_mem a hv)).2
            rw [hla] at h1
            omega
      have hadjs : ∀ m ∈ moviesOf st a, ∀ c ∈ castOf st m,
          c < st.actors.length → adj st a c :=
        fun m hm c hc hlt => ⟨hlt, m, hm, hc⟩
      have hred : bfsLoop t (fuel + 1) (a :: q0) st =
          (match procMovies st q0 t (levelI st a) (moviesOf st a) with
           | .inl r => some r
           | .inr (st', q') => bfsLoop t fuel q' st') := rfl
      rw [hla] at hred
      rcases procMovies_spec (moviesOf st a) st q0 M hadjs with
        ⟨r, st2, heq, hstr, hr, hd⟩ | ⟨st2, q2, heq, hstr, M2, hall, hmono⟩
      · refine ⟨r, st2, ?_, hstr, Or.inr ⟨da + 1, hr, ?_⟩⟩
        · rw [hred, heq]
        · rw [sameStruct_isDist hstr]
          exact hd
      · have I2 : BfsInv st2 q2 s t := by
          refine ⟨M2.vs, M2.exact_level, M2.qvis, M2.qlt, ?_, M2.sorted,
            ⟨(da : Int), M2.band⟩, M2.tunv⟩
          intro v hv hnq u hadj
          by_cases hva : v = a
          · subst hva
            rw [← sameStruct_adj hstr] at hadj
            obtain ⟨hlt, m, hm, hc⟩ := hadj
            exact hall m hm u hc
          · exact M2.closed v hv hnq hva u hadj
        have hcount : unvisitedCount st2 + q2.length ≤ fuel := by
          have hc := procMovies_count _ _ _ _ _ heq
          simp only [List.length_cons] at hfuel
          omega
        obtain ⟨r, st3, heq3, hstr3, hdisj⟩ := ih q2 st2 I2 hcount
        refine ⟨r, st3, ?_, sameStruct_trans hstr hstr3, ?_⟩
        · rw [hred, heq]
          exact heq3
        · rw [sameStruct_pathN hstr, sameStruct_isDist hstr]
          exact hdisj

/-- Correctness of BFS for distinct valid endpoints: it always returns a
value, -1 exactly on unreachable targets, and otherwise the exact
shortest shared-movie distance. -/
theorem BFS_correct {st : Store} {s t : Nat}
    (hs : s < st.actors.length) (ht : t < st.actors.length) (hst : s ≠ t) :
    ∃ r st2, BFS st s t = some (r, st2) ∧ sameStruct st st2 ∧
      ((r = -1 ∧ ∀ k, ¬ pathN st k s t) ∨
       (∃ d : Nat, r = (d : Int) ∧ isDist st s t d)) := by
  have hstr0 : sameStruct st (markActor (resetAll st) s 0) :=
    sameStruct_trans (resetAll_sameStruct st) (markActor_sameStruct (resetAll st) s 0)
  set st1 := markActor (resetAll st) s 0 with hst1
  have hs' : s < (resetAll st).actors.length := by rw [resetAll_length]; exact hs
  have hlen1 : st1.actors.length = st.actors.length := (sameStruct_length hstr0).symm
  have hvs : visitedB st1 s = true := visitedB_markActor_self hs'
  have hls : levelI st1 s = 0 := levelI_markActor_self hs'
  have hother : ∀ v, v ≠ s → v < st.actors.length → visitedB st1 v = false := by
    intro v hv hvlt
    rw [hst1, visitedB_markActor_other hv]
    exact visitedB_resetAll hvlt
  have I : BfsInv st1 [s] s t := by
    refine ⟨hvs, ?_, ?_, ?_, ?_, List.pairwise_singleton _ _, ⟨0, ?_⟩, ?_⟩
    · intro v hvlt hvv
      by_cases hv : v = s
      · subst hv
        refine ⟨0, by simpa using hls, ?_, fun j _ => Nat.zero_le j⟩
        rw [pathN_zero]
      · rw [hother v hv (hlen1 ▸ hvlt)] at hvv
        exact Bool.noConfusion hvv
    · intro v hv
      rw [List.mem_singleton] at hv
      subst hv
      exact hvs
    · intro v hv
      rw [List.mem_singleton] at hv
      subst hv
      rw [hlen1]
      exact hs
    · intro v hv hnq u hadj
      by_cases hvlt : v < st.actors.length
      · by_cases hvs' : v = s
        · subst hvs'
          exact absurd (List.mem_singleton.mpr rfl) hnq
        · rw [hother v hvs' hvlt] at hv
          exact Bool.noConfusion hv
      · have halt := adj_src_lt hadj
        rw [hlen1] at halt
        exact absurd halt hvlt
    · intro v hv
      rw [List.mem_singleton] at hv
      subst hv
      rw [hls]
      omega
    · rw [hother t (Ne.symm hst) ht]
  have hcount : unvisitedCount st1 + [s].length ≤ st.actors.length := by
    have h1 : visitedB (resetAll st) s = false := visitedB_resetAll hs
    have h2 : unvisitedCount (markActor (resetAll st) s 0) + 1 =
        unvisitedCount (resetAll st) := unvisitedCount_markActor h1
    rw [unvisitedCount_resetAll] at h2
    rw [← hst1] at h2
    simp only [List.length_singleton]
    omega
  obtain ⟨r, st2, heq, hstr, hdisj⟩ := bfsLoop_spec st.actors.length [s] st1 I hcount
  refine ⟨r, st2, ?_, sameStruct_trans hstr0 hstr, ?_⟩
  · show BFS st s t = some (r, st2)
    unfold BFS
    rw [if_neg hst]
    exact heq
  · rw [sameStruct_pathN hstr0, sameStruct_isDist hstr0]
    exact hdisj

/-! Properties of the parser's store operations, leading to the
invariants every parsed store satisfies: unique actor names and the
two-way actor-movie membership correspondence. -/

theorem findActorAux_some {nm : List Char} :
    ∀ (l : List ActorN) (k i : Nat), findActorAux nm l k = some i →
      k ≤ i ∧ i - k < l.length ∧ ∃ a, l.get? (i - k) = some a ∧ a.actorName = nm := by
  intro l
  induction l with
  | nil => intro k i h; simp [findActorAux] at h
  | cons a rest ih =>
    intro k i h
    simp only [findActorAux] at h
    by_cases ha : a.actorName = nm
    · rw [if_pos ha] at h
      cases h
      exact ⟨Nat.le_refl _, by simp, a, by simp, ha⟩
    · rw [if_neg ha] at h
      obtain ⟨hk, hlt, b, hb, hbn⟩ := ih (k + 1) i h
      refine ⟨by omega, by simp; omega, b, ?_, hbn⟩
      have : i - k = (i - (k + 1)) + 1 := by omega
      rw [this]
      simpa using hb

theorem findActor_some {st : Store} {nm : List Char} {i : Nat}
    (h : findActor st nm = some i) :
    i < st.actors.length ∧ ∃ a, st.actors.get? i = some a ∧ a.actorName = nm := by
  obtain ⟨-, hlt, a, ha, hn⟩ := findActorAux_some st.actors 0 i h
  simp only [Nat.sub_zero] at hlt ha
  exact ⟨hlt, a, ha, hn⟩

theorem findActorAux_none {nm : List Char} :
    ∀ (l : List ActorN) (k : Nat), findActorAux nm l k = none →
      ∀ a ∈ l, a.actorName ≠ nm := by
  intro l
  induction l with
  | nil => intro k h a ha; simp at ha
  | cons b rest ih =>
    intro k h a ha
    simp only [findActorAux] at h
    by_cases hb : b.actorName = nm
    · rw [if_pos hb] at h; exact Option.noConfusion h
    · rw [if_neg hb] at h
      rcases List.mem_cons.mp ha with he | he
      · subst he; exact hb
      · exact ih (k + 1) h a he

theorem findActor_none {st : Store} {nm : List Char} (h : findActor st nm = none) :
    ∀ a ∈ st.actors, a.actorName ≠ nm :=
  findActorAux_none st.actors 0 h

theorem name_inj {st : Store} (hnd : (st.actors.map ActorN.actorName).Nodup)
    {x y : Nat} (hx : x < st.actors.length) (hy : y < st.actors.length)
    (he : actorNameAt st x = actorNameAt st y) : x = y := by
  refine List.get?_inj ?_ hnd ?_
  · simpa using hx
  rw [List.get?_map, List.get?_map, List.get?_eq_get hx, List.get?_eq_get hy]
  unfold actorNameAt at he
  rw [List.get?_eq_get hx, List.get?_eq_get hy] at he
  simpa using he

theorem castLoop_spec (st : Store) (nm : List Char) (i : Nat) :
    ∀ cs : List Nat, cs ≠ [] →
      castLoop st nm i cs = cs ++ [i] ∨
      ((∃ x ∈ cs, actorNameAt st x = nm) ∧ castLoop st nm i cs = cs) := by
  intro cs
  induction cs with
  | nil => intro h; exact absurd rfl h
  | cons x xs ih =>
    intro _
    cases xs with
    | nil => left; rfl
    | cons y ys =>
      by_cases hx : actorNameAt st x = nm
      · right
        refine ⟨⟨x, List.mem_cons_self x (y :: ys), hx⟩, ?_⟩
        simp [castLoop, hx]
      · have hred : castLoop st nm i (x :: y :: ys) = x :: castLoop st nm i (y :: ys) := by
          simp [castLoop, hx]
        rcases ih (by simp) with h | ⟨⟨z, hz, hn⟩, h⟩
        · left
          rw [hred, h]
          rfl
        · right
          refine ⟨⟨z, List.mem_cons_of_mem x hz, hn⟩, ?_⟩
          rw [hred, h]

theorem castAdd_spec (st : Store) (cast : List Nat) (i : Nat) :
    castAdd st cast i = cast ++ [i] ∨
    ((∃ x ∈ cast, actorNameAt st x = actorNameAt st i) ∧ castAdd st cast i = cast) := by
  cases cast with
  | nil => left; rfl
  | cons x xs => exact castLoop_spec st (actorNameAt st i) i (x :: xs) (by simp)

theorem castAdd_subset {st : Store} {cast : List Nat} {i x : Nat}
    (h : x ∈ cast) : x ∈ castAdd st cast i := by
  rcases castAdd_spec st cast i with he | ⟨-, he⟩ <;> rw [he]
  · exact List.mem_append.mpr (Or.inl h)
  · exact h

theorem mem_castAdd {st : Store} {cast : List Nat} {i x : Nat}
    (h : x ∈ castAdd st cast i) : x ∈ cast ∨ x = i := by
  rcases castAdd_spec st cast i with he | ⟨-, he⟩ <;> rw [he] at h
  · rcases List.mem_append.mp h with h | h
    · exact Or.inl h
    · exact Or.inr (List.mem_singleton.mp h)
  · exact Or.inl h

theorem addMTAM_movies (st : Store) (i m : Nat) :
    (addMovieToActorsMovies st i m).movies = st.movies := by
  unfold addMovieToActorsMovies
  cases st.actors.get? i <;> rfl

theorem addMTAM_castOf (st : Store) (i m : Nat) :
    castOf (addMovieToActorsMovies st i m) = castOf st := by
  funext m'
  unfold castOf
  rw [addMTAM_movies]

theorem addMTAM_length (st : Store) (i m : Nat) :
    (addMovieToActorsMovies st i m).actors.length = st.actors.length := by
  unfold addMovieToActorsMovies
  cases st.actors.get? i <;> simp

theorem addMTAM_names (st : Store) (i m : Nat) :
    (addMovieToActorsMovies st i m).actors.map ActorN.actorName =
      st.actors.map ActorN.actorName := by
  unfold addMovieToActorsMovies
  cases hg : st.actors.get? i with
  | none => rfl
  | some a =>
    apply List.ext_get?
    intro j
    rw [List.get?_map, List.get?_map]
    by_cases hj : i = j
    · subst hj
      rw [List.get?_set_eq_of_lt _ (get?_some_lt hg), hg]
      rfl
    · rw [List.get?_set_ne _ _ hj]

theorem addMTAM_actorNameAt (st : Store) (i m : Nat) :
    actorNameAt (addMovieToActorsMovies st i m) = actorNameAt st := by
  funext j
  unfold actorNameAt
  rw [← List.get?_map, ← List.get?_map, addMTAM_names]

theorem addMTAM_moviesOf_self {st : Store} {i : Nat} (m : Nat)
    (h : i < st.actors.length) :
    moviesOf (addMovieToActorsMovies st i m) i = moviesOf st i ++ [m] := by
  unfold addMovieToActorsMovies
  cases hg : st.actors.get? i with
  | none => exact absurd (List.get?_eq_get h) (by rw [hg]; simp)
  | some a =>
    unfold moviesOf
    rw [hg]
    simp [List.getElem?_set_eq h]

theorem addMTAM_moviesOf_other {st : Store} {i j : Nat} (m : Nat)
    (h : j ≠ i) :
    moviesOf (addMovieToActorsMovies st i m) j = moviesOf st j := by
  unfold addMovieToActorsMovies
  cases hg : st.actors.get? i with
  | none => rfl
  | some a =>
    unfold moviesOf
    simp [List.getElem?_set_ne (Ne.symm h)]

theorem addATM_actors (st : Store) (m i : Nat) :
    (addActorToMovie st m i).actors = st.actors := by
  unfold addActorToMovie
  cases st.movies.get? m <;> rfl

theorem addATM_moviesOf (st : Store) (m i : Nat) :
    moviesOf (addActorToMovie st m i) = moviesOf st := by
  funext j
  unfold moviesOf
  rw [addATM_actors]

theorem addATM_movies_length (st : Store) (m i : Nat) :
    (addActorToMovie st m i).movies.length = st.movies.length := by
  unfold addActorToMovie
  cases st.movies.get? m <;> simp

theorem addATM_castOf_self {st : Store} {m : Nat} (i : Nat) {mv : MovieN}
    (hg : st.movies.get? m = some mv) :
    castOf (addActorToMovie st m i) m = castAdd st mv.actors i := by
  unfold addActorToMovie
  rw [hg]
  unfold castOf
  simp [List.getElem?_set_eq (get?_some_lt hg)]

theorem addATM_castOf_other {st : Store} {m m' : Nat} (i : Nat)
    (h : m' ≠ m) :
    castOf (addActorToMovie st m i) m' = castOf st m' := by
  unfold addActorToMovie
  cases st.movies.get? m with
  | none => rfl
  | some mv =>
    unfold castOf
    simp [List.getElem?_set_ne (Ne.symm h)]

theorem appendMovie_moviesOf (st : Store) (mv : MovieN) :
    moviesOf { st with movies := st.movies ++ [mv] } = moviesOf st := rfl

theorem appendMovie_castOf_ne {st : Store} {mv : MovieN} {m : Nat}
    (h : m ≠ st.movies.length) :
    castOf { st with movies := st.movies ++ [mv] } m = castOf st m := by
  unfold castOf
  rcases Nat.lt_or_ge m st.movies.length with hlt | hge
  · rw [show ({ st with movies := st.movies ++ [mv] } : Store).movies
        = st.movies ++ [mv] from rfl, List.get?_append hlt]
  · have hgt : st.movies.length < m := Nat.lt_of_le_of_ne hge (Ne.symm h)
    rw [show ({ st with movies := st.movies ++ [mv] } : Store).movies
        = st.movies ++ [mv] from rfl]
    rw [List.get?_len_le (by simp; omega), List.get?_len_le (by omega)]

theorem appendMovie_castOf_new (st : Store) (mv : MovieN) :
    castOf { st with movies := st.movies ++ [mv] } st.movies.length = mv.actors := by
  unfold castOf
  rw [show ({ st with movies := st.movies ++ [mv] } : Store).movies
      = st.movies ++ [mv] from rfl, List.get?_concat_length]
  rfl

theorem appendActor_moviesOf_lt {st : Store} {newA : ActorN} {j : Nat}
    (h : j < st.actors.length) :
    moviesOf { st with actors := st.actors ++ [newA] } j = moviesOf st j := by
  unfold moviesOf
  rw [show ({ st with actors := st.actors ++ [newA] } : Store).actors
      = st.actors ++ [newA] from rfl, List.get?_append h]

theorem appendActor_moviesOf_new (st : Store) (newA : ActorN) :
    moviesOf { st with actors := st.actors ++ [newA] } st.actors.length = newA.movies := by
  unfold moviesOf
  rw [show ({ st with actors := st.actors ++ [newA] } : Store).actors
      = st.actors ++ [newA] from rfl, List.get?_concat_length]
  rfl

theorem appendActor_moviesOf_gt {st : Store} {newA : ActorN} {j : Nat}
    (h : st.actors.length < j) :
    moviesOf { st with actors := st.actors ++ [newA] } j = moviesOf st j := by
  unfold moviesOf
  rw [show ({ st with actors := st.actors ++ [newA] } : Store).actors
      = st.actors ++ [newA] from rfl]
  rw [List.get?_len_le (by simp; omega), List.get?_len_le (by omega)]

theorem appendActor_nameAt_lt {st : Store} {newA : ActorN} {j : Nat}
    (h : j < st.actors.length) :
    actorNameAt { st with actors := st.actors ++ [newA] } j = actorNameAt st j := by
  unfold actorNameAt
  rw [show ({ st with actors := st.actors ++ [newA] } : Store).actors
      = st.actors ++ [newA] from rfl, List.get?_append h]

theorem appendActor_nameAt_new (st : Store) (newA : ActorN) :
    actorNameAt { st with actors := st.actors ++ [newA] } st.actors.length =
      newA.actorName := by
  unfold actorNameAt
  rw [show ({ st with actors := st.actors ++ [newA] } : Store).actors
      = st.actors ++ [newA] from rfl, List.get?_concat_length]
  rfl

theorem storeWF_empty : StoreWF { actors := [], movies := [] } := by
  refine ⟨by simp, ?_, ?_, ?_, ?_⟩ <;>
    intro a m h <;> simp [moviesOf, castOf] at h

/-- Registering a fresh movie with an empty cast preserves the store
invariants. -/
theorem storeWF_header {st : Store} (W : StoreWF st) (mv : MovieN)
    (hmv : mv.actors = []) :
    StoreWF { st with movies := st.movies ++ [mv] } := by
  refine ⟨W.nodupNames, ?_, ?_, ?_, ?_⟩
  · intro a m h
    rw [appendMovie_moviesOf] at h
    have hlt := W.movieLt a m h
    rw [appendMovie_castOf_ne (Nat.ne_of_lt hlt)]
    exact W.memCast a m h
  · intro a m h
    rw [appendMovie_moviesOf]
    by_cases hm : m = st.movies.length
    · subst hm
      rw [appendMovie_castOf_new, hmv] at h
      simp at h
    · rw [appendMovie_castOf_ne hm] at h
      exact W.memMovies a m h
  · intro a m h
    rw [appendMovie_moviesOf] at h
    have := W.movieLt a m h
    simp
    omega
  · intro m i h
    by_cases hm : m = st.movies.length
    · subst hm
      rw [appendMovie_castOf_new, hmv] at h
      simp at h
    · rw [appendMovie_castOf_ne hm] at h
      exact W.castLt m i h

/-- Linking an existing actor i to the current movie m preserves the
store invariants; the decisive point is that the cast-walk of
addActorToMovie declines to add only when an actor of the same name is
already in the cast, which by name uniqueness is i itself. -/
theorem storeWF_link {st : Store} (W : StoreWF st) {i m : Nat}
    (hi : i < st.actors.length) (hm : m < st.movies.length) :
    StoreWF (addActorToMovie (addMovieToActorsMovies st i m) m i) := by
  obtain ⟨mv, hmv⟩ : ∃ mv, st.movies.get? m = some mv := by
    rw [List.get?_eq_get hm]; exact ⟨_, rfl⟩
  have hcast : castOf st m = mv.actors := by
    unfold castOf; rw [hmv]; rfl
  have hmv1 : (addMovieToActorsMovies st i m).movies.get? m = some mv := by
    rw [addMTAM_movies]; exact hmv
  have hc2self : castOf (addActorToMovie (addMovieToActorsMovies st i m) m i) m =
      castAdd (addMovieToActorsMovies st i m) mv.actors i :=
    addATM_castOf_self i hmv1
  have hc2other : ∀ m', m' ≠ m →
      castOf (addActorToMovie (addMovieToActorsMovies st i m) m i) m' = castOf st m' := by
    intro m' hm'
    rw [addATM_castOf_other i hm']
    rw [show castOf (addMovieToActorsMovies st i m) m' = castOf st m' from
      congrFun (addMTAM_castOf st i m) m']
  have hmsame : moviesOf (addActorToMovie (addMovieToActorsMovies st i m) m i) =
      moviesOf (addMovieToActorsMovies st i m) := addATM_moviesOf _ m i
  have hmself : moviesOf (addMovieToActorsMovies st i m) i = moviesOf st i ++ [m] :=
    addMTAM_moviesOf_self m hi
  have hmother : ∀ j, j ≠ i → moviesOf (addMovieToActorsMovies st i m) j = moviesOf st j :=
    fun j hj => addMTAM_moviesOf_other m hj
  have hname1 : actorNameAt (addMovieToActorsMovies st i m) = actorNameAt st :=
    addMTAM_actorNameAt st i m
  have hikey : i ∈ castAdd (addMovieToActorsMovies st i m) mv.actors i := by
    rcases castAdd_spec (addMovieToActorsMovies st i m) mv.actors i with he | ⟨⟨x, hx, hn⟩, he⟩
    · rw [he]; exact List.mem_append.mpr (Or.inr (List.mem_singleton.mpr rfl))
    · rw [hname1] at hn
      have hxlt : x < st.actors.length := W.castLt m x (hcast ▸ hx)
      have : x = i := name_inj W.nodupNames hxlt hi hn
      subst this
      rw [he]
      exact hx
  have hlen : (addActorToMovie (addMovieToActorsMovies st i m) m i).actors.length =
      st.actors.length := by
    rw [addATM_actors, addMTAM_length]
  have hmlen : (addActorToMovie (addMovieToActorsMovies st i m) m i).movies.length =
      st.movies.length := by
    rw [addATM_movies_length, addMTAM_movies]
  have hsup : ∀ m' a', a' ∈ castOf st m' →
      a' ∈ castOf (addActorToMovie (addMovieToActorsMovies st i m) m i) m' := by
    intro m' a' h
    by_cases hm' : m' = m
    · subst hm'
      rw [hc2self]
      exact castAdd_subset (hcast ▸ h)
    · rw [hc2other m' hm']
      exact h
  have hnames2 : (addActorToMovie (addMovieToActorsMovies st i m) m i).actors.map
      ActorN.actorName = st.actors.map ActorN.actorName := by
    rw [addATM_actors, addMTAM_names]
  refine ⟨hnames2 ▸ W.nodupNames, ?_, ?_, ?_, ?_⟩
  · intro a' m' h
    rw [hmsame] at h
    by_cases ha' : a' = i
    · subst ha'
      rw [hmself] at h
      rcases List.mem_append.mp h with h | h
      · exact hsup m' a' (W.memCast a' m' h)
      · rw [List.mem_singleton] at h
        subst h
        rw [hc2self]
        exact hikey
    · rw [hmother a' ha'] at h
      exact hsup m' a' (W.memCast a' m' h)
  · intro a' m' h
    rw [hmsame]
    by_cases hm' : m' = m
    · subst hm'
      rw [hc2self] at h
      rcases mem_castAdd h with h | h
      · have := W.memMovies a' m' (hcast ▸ h)
        by_cases ha' : a' = i
        · subst ha'
          rw [hmself]
          exact List.mem_append.mpr (Or.inl this)
        · rw [hmother a' ha']
          exact this
      · subst h
        rw [hmself]
        exact List.mem_append.mpr (Or.inr (List.mem_singleton.mpr rfl))
    · rw [hc2other m' hm'] at h
      have := W.memMovies a' m' h
      by_cases ha' : a' = i
      · subst ha'
        rw [hmself]
        exact List.mem_append.mpr (Or.inl this)
      · rw [hmother a' ha']
        exact this
  · intro a' m' h
    rw [hmlen]
    rw [hmsame] at h
    by_cases ha' : a' = i
    · subst ha'
      rw [hmself] at h
      rcases List.mem_append.mp h with h | h
      · exact W.movieLt a' m' h
      · rw [List.mem_singleton] at h
        subst h
        exact hm
    · rw [hmother a' ha'] at h
      exact W.movieLt a' m' h
  · intro m' a' h
    rw [hlen]
    by_cases hm' : m' = m
    · subst hm'
      rw [hc2self] at h
      rcases mem_castAdd h with h | h
      · exact W.castLt m' a' (hcast ▸ h)
      · subst h
        exact hi
    · rw [hc2other m' hm'] at h
      exact W.castLt m' a' h

/-- Creating a fresh actor and linking it to the current movie preserves
the store invariants. -/
theorem storeWF_new {st : Store} (W : StoreWF st) {nm : List Char} {m : Nat}
    (hm : m < st.movies.length)
    (hfresh : ∀ a ∈ st.actors, a.actorName ≠ nm) :
    StoreWF (addActorToMovie
      (addMovieToActorsMovies
        { st with actors := st.actors ++ [{ actorName := nm, movies := [], visited := false, level := 0 }] }
        st.actors.length m)
      m st.actors.length) := by
  set newA : ActorN := { actorName := nm, movies := [], visited := false, level := 0 } with hnewA
  set stb : Store := { st with actors := st.actors ++ [newA] } with hstb
  set i : Nat := st.actors.length with hidef
  obtain ⟨mv, hmv⟩ : ∃ mv, st.movies.get? m = some mv := by
    rw [List.get?_eq_get hm]; exact ⟨_, rfl⟩
  have hcast : castOf st m = mv.actors := by
    unfold castOf; rw [hmv]; rfl
  have hcastb : castOf stb = castOf st := rfl
  have hblen : stb.actors.length = st.actors.length + 1 := by
    rw [hstb]; simp
  have hilt : i < stb.actors.length := by omega
  have hmvb : stb.movies.get? m = some mv := hmv
  have hmv1 : (addMovieToActorsMovies stb i m).movies.get? m = some mv := by
    rw [addMTAM_movies]; exact hmvb
  have hc2self : castOf (addActorToMovie (addMovieToActorsMovies stb i m) m i) m =
      castAdd (addMovieToActorsMovies stb i m) mv.actors i :=
    addATM_castOf_self i hmv1
  have hc2other : ∀ m', m' ≠ m →
      castOf (addActorToMovie (addMovieToActorsMovies stb i m) m i) m' = castOf st m' := by
    intro m' hm'
    rw [addATM_castOf_other i hm']
    rw [show castOf (addMovieToActorsMovies stb i m) m' = castOf stb m' from
      congrFun (addMTAM_castOf stb i m) m']
    exact congrFun hcastb m'
  have hmsame : moviesOf (addActorToMovie (addMovieToActorsMovies stb i m) m i) =
      moviesOf (addMovieToActorsMovies stb i m) := addATM_moviesOf _ m i
  have hbmovies : moviesOf stb i = [] := by
    rw [hstb, hidef]
    rw [appendActor_moviesOf_new st newA]
  have hmself : moviesOf (addMovieToActorsMovies stb i m) i = [m] := by
    rw [addMTAM_moviesOf_self m hilt, hbmovies]
    rfl
  have hbother : ∀ j, j ≠ i → moviesOf stb j = moviesOf st j := by
    intro j hj
    rcases Nat.lt_or_ge j i with hlt | hge
    · rw [hstb]; exact appendActor_moviesOf_lt hlt
    · have : i < j := Nat.lt_of_le_of_ne hge (Ne.symm hj)
      rw [hstb]; exact appendActor_moviesOf_gt this
  have hmother : ∀ j, j ≠ i →
      moviesOf (addMovieToActorsMovies stb i m) j = moviesOf st j := by
    intro j hj
    rw [addMTAM_moviesOf_other m hj]
    exact hbother j hj
  have hnameb : ∀ j, j < st.actors.length → actorNameAt stb j = actorNameAt st j := by
    intro j hj
    rw [hstb]
    exact appendActor_nameAt_lt hj
  have hnamebi : actorNameAt stb i = nm := by
    rw [hstb, hidef]
    rw [appendActor_nameAt_new st newA]
  have hname1 : actorNameAt (addMovieToActorsMovies stb i m) = actorNameAt stb :=
    addMTAM_actorNameAt stb i m
  have hnameAt_mem : ∀ x, x < st.actors.length →
      ∃ a ∈ st.actors, a.actorName = actorNameAt st x := by
    intro x hx
    refine ⟨st.actors.get ⟨x, hx⟩, List.get_mem _ _ _, ?_⟩
    unfold actorNameAt
    rw [List.get?_eq_get hx]
    rfl
  have hikey : i ∈ castAdd (addMovieToActorsMovies stb i m) mv.actors i := by
    rcases castAdd_spec (addMovieToActorsMovies stb i m) mv.actors i with he | ⟨⟨x, hx, hn⟩, he⟩
    · rw [he]; exact List.mem_append.mpr (Or.inr (List.mem_singleton.mpr rfl))
    · exfalso
      have hxlt : x < st.actors.length := W.castLt m x (hcast ▸ hx)
      rw [hname1] at hn
      rw [hnameb x hxlt, hnamebi] at hn
      obtain ⟨a, ha, han⟩ := hnameAt_mem x hxlt
      exact hfresh a ha (han.trans hn)
  have hlen : (addActorToMovie (addMovieToActorsMovies stb i m) m i).actors.length =
      st.actors.length + 1 := by
    rw [addATM_actors, addMTAM_length, hblen]
  have hmlen : (addActorToMovie (addMovieToActorsMovies stb i m) m i).movies.length =
      st.movies.length := by
    rw [addATM_movies_length, addMTAM_movies]
  have hsup : ∀ m' a', a' ∈ castOf st m' →
      a' ∈ castOf (addActorToMovie (addMovieToActorsMovies stb i m) m i) m' := by
    intro m' a' h
    by_cases hm' : m' = m
    · subst hm'
      rw [hc2self]
      exact castAdd_subset (hcast ▸ h)
    · rw [hc2other m' hm']
      exact h
  have hnames2 : (addActorToMovie (addMovieToActorsMovies stb i m) m i).actors.map
      ActorN.actorName = st.actors.map ActorN.actorName ++ [nm] := by
    rw [addATM_actors, addMTAM_names, hstb]
    simp [hnewA]
  have hnodup2 : ((addActorToMovie (addMovieToActorsMovies stb i m) m i).actors.map
      ActorN.actorName).Nodup := by
    rw [hnames2]
    rw [List.nodup_append]
    refine ⟨W.nodupNames, List.nodup_singleton nm, ?_⟩
    intro x hx
    rw [List.mem_map] at hx
    obtain ⟨a, ha, han⟩ := hx
    rw [List.mem_singleton]
    intro he
    subst he
    exact hfresh a ha han
  refine ⟨hnodup2, ?_, ?_, ?_, ?_⟩
  · intro a' m' h
    rw [hmsame] at h
    by_cases ha' : a' = i
    · subst ha'
      rw [hmself] at h
      rw [List.mem_singleton] at h
      subst h
      rw [hc2self]
      exact hikey
    · rw [hmother a' ha'] at h
      exact hsup m' a' (W.memCast a' m' h)
  · intro a' m' h
    rw [hmsame]
    by_cases hm' : m' = m
    · subst hm'
      rw [hc2self] at h
      rcases mem_castAdd h with h | h
      · have hmem := W.memMovies a' m' (hcast ▸ h)
        have ha'lt : a' < st.actors.length := W.castLt m' a' (hcast ▸ h)
        rw [hmother a' (by omega)]
        exact hmem
      · subst h
        rw [hmself]
        exact List.mem_singleton.mpr rfl
    · rw [hc2other m' hm'] at h
      have ha'lt : a' < st.actors.length := W.castLt m' a' h
      rw [hmother a' (by omega)]
      exact W.memMovies a' m' h
  · intro a' m' h
    rw [hmlen]
    rw [hmsame] at h
    by_cases ha' : a' = i
    · subst ha'
      rw [hmself] at h
      rw [List.mem_singleton] at h
      subst h
      exact hm
    · rw [hmother a' ha'] at h
      exact W.movieLt a' m' h
  · intro m' a' h
    rw [hlen]
    by_cases hm' : m' = m
    · subst hm'
      rw [hc2self] at h
      rcases mem_castAdd h with h | h
      · have := W.castLt m' a' (hcast ▸ h)
        omega
      · subst h
        omega
    · rw [hc2other m' hm'] at h
      have := W.castLt m' a' h
      omega

/-- Every store the parser loop produces from an invariant-satisfying
store satisfies the invariants. -/
theorem parseFileAux_wf :
    ∀ (ls : List (List Char)) (st : Store) (cur : Option Nat) (st' : Store),
      parseFileAux ls st cur = some st' → StoreWF st →
      (∀ m, cur = some m → m < st.movies.length) → StoreWF st' := by
  intro ls
  induction ls with
  | nil =>
    intro st cur st' h W _
    simp only [parseFileAux] at h
    cases h
    exact W
  | cons l ls ih =>
    intro st cur st' h W hcur
    cases l with
    | nil =>
      simp only [parseFileAux] at h
      exact ih st cur st' h W hcur
    | cons c rest =>
      by_cases hsp : isSpaceC c
      · simp only [parseFileAux, hsp, if_true] at h
        exact ih st cur st' h W hcur
      · by_cases hcm : containsMovie (c :: rest)
        · simp only [parseFileAux, hsp, hcm, if_true, Bool.false_eq_true, if_false] at h
          refine ih _ _ _ h (storeWF_header W _ rfl) ?_
          intro m hm
          cases hm
          simp
        · simp only [parseFileAux, hsp, hcm, Bool.false_eq_true, if_false] at h
          cases cur with
          | none => exact Option.noConfusion h
          | some m =>
            have hmlt : m < st.movies.length := hcur m rfl
            cases hf : findActor st (c :: rest) with
            | some i =>
              rw [hf] at h
              have hi := (findActor_some hf).1
              refine ih _ _ _ h (storeWF_link W hi hmlt) ?_
              intro m' hm'
              cases hm'
              rw [addATM_movies_length, addMTAM_movies]
              exact hmlt
            | none =>
              rw [hf] at h
              refine ih _ _ _ h
                (storeWF_new W hmlt (findActor_none hf)) ?_
              intro m' hm'
              cases hm'
              rw [addATM_movies_length, addMTAM_movies]
              exact hmlt

/-- Every store parseFile produces satisfies the invariants: unique
actor names and symmetric actor-movie membership. -/
theorem parseFile_wf {lines : List (List Char)} {st : Store}
    (h : parseFile lines = some st) : StoreWF st :=
  parseFileAux_wf lines _ none st h storeWF_empty (fun _ hm => Option.noConfusion hm)

/-- In an invariant-satisfying store the shared-movie relation is
symmetric. -/
theorem adj_symm_of_wf {st : Store} (W : StoreWF st) {i j : Nat}
    (h : adj st i j) : adj st j i := by
  obtain ⟨hj, m, hm, hc⟩ := h
  have hilt : i < st.actors.length := by
    unfold moviesOf at hm
    cases hg : st.actors.get? i with
    | none => rw [hg] at hm; simp at hm
    | some a => exact get?_some_lt hg
  exact ⟨hilt, m, W.memMovies j m hc, W.memCast i m hm⟩

theorem pathN_cons {st : Store} {a c : Nat} (h1 : adj st a c) :
    ∀ {n : Nat} {b : Nat}, pathN st n c b → pathN st (n + 1) a b := by
  intro n
  induction n with
  | zero =>
    intro b h2
    rw [pathN_zero] at h2
    subst h2
    rw [pathN_succ]
    exact ⟨a, rfl, h1⟩
  | succ n ih =>
    intro b h2
    rw [pathN_succ] at h2
    obtain ⟨d, pd, hdb⟩ := h2
    rw [pathN_succ]
    exact ⟨d, ih pd, hdb⟩

theorem pathN_symm {st : Store} (hsym : ∀ i j, adj st i j → adj st j i) :
    ∀ {n : Nat} {a b : Nat}, pathN st n a b → pathN st n b a := by
  intro n
  induction n with
  | zero =>
    intro a b h
    rw [pathN_zero] at h ⊢
    exact h.symm
  | succ n ih =>
    intro a b h
    rw [pathN_succ] at h
    obtain ⟨c, pc, hcb⟩ := h
    exact pathN_cons (hsym c b hcb) (ih pc)

/-! Unconditional structure preservation by BFS (used for the
query-independence claims): only visited/level fields ever change. -/

theorem procCast_struct {t : Nat} {aLvl : Int} :
    ∀ (cs : List Nat) (st : Store) (q : List Nat) (st2 : Store),
      ((∃ r, procCast st q t aLvl cs = .inl (r, st2)) ∨
       (∃ q2, procCast st q t aLvl cs = .inr (st2, q2))) →
      sameStruct st st2 := by
  intro cs
  induction cs with
  | nil =>
    intro st q st2 h
    rcases h with ⟨r, h⟩ | ⟨q2, h⟩
    · exact absurd h (by simp [procCast])
    · simp only [procCast] at h
      cases h
      exact sameStruct_refl st
  | cons c cs ih =>
    intro st q st2 h
    by_cases hv : visitedB st c = true
    · have hred : procCast st q t aLvl (c :: cs) = procCast st q t aLvl cs := by
        simp [procCast, hv]
      rw [hred] at h
      exact ih st q st2 h
    · have hvf : visitedB st c = false := Bool.not_eq_true _ ▸ hv
      by_cases hct : c = t
      · have hred : procCast st q t aLvl (c :: cs) =
            .inl (aLvl + 1, markActor st c (aLvl + 1)) := by
          subst hct
          simp [procCast, hvf]
        rw [hred] at h
        rcases h with ⟨r, h⟩ | ⟨q2, h⟩
        · cases h
          exact markActor_sameStruct st c (aLvl + 1)
        · exact absurd h (by simp)
      · have hred : procCast st q t aLvl (c :: cs) =
            procCast (markActor st c (aLvl + 1)) (q ++ [c]) t aLvl cs := by
          simp [procCast, hvf, hct]
        rw [hred] at h
        exact sameStruct_trans (markActor_sameStruct st c (aLvl + 1))
          (ih _ _ st2 h)

theorem procMovies_struct {t : Nat} {aLvl : Int} :
    ∀ (ms : List Nat) (st : Store) (q : List Nat) (st2 : Store),
      ((∃ r, procMovies st q t aLvl ms = .inl (r, st2)) ∨
       (∃ q2, procMovies st q t aLvl ms = .inr (st2, q2))) →
      sameStruct st st2 := by
  intro ms
  induction ms with
  | nil =>
    intro st q st2 h
    rcases h with ⟨r, h⟩ | ⟨q2, h⟩
    · exact absurd h (by simp [procMovies])
    · simp only [procMovies] at h
      cases h
      exact sameStruct_refl st
  | cons m ms ih =>
    intro st q st2 h
    cases hp : procCast st q t aLvl (castOf st m) with
    | inl r =>
      have h1 : sameStruct st r.2 :=
        procCast_struct (castOf st m) st q r.2 (Or.inl ⟨r.1, by rw [hp]⟩)
      rcases h with ⟨r', h⟩ | ⟨q2, h⟩
      · simp only [procMovies, hp] at h
        cases h
        exact h1
      · simp only [procMovies, hp] at h
        exact absurd h (by simp)
    | inr p =>
      have h1 : sameStruct st p.1 :=
        procCast_struct (castOf st m) st q p.1 (Or.inr ⟨p.2, by rw [hp]⟩)
      have hred : procMovies st q t aLvl (m :: ms) = procMovies p.1 p.2 t aLvl ms := by
        simp only [procMovies, hp]
      rw [hred] at h
      exact sameStruct_trans h1 (ih p.1 p.2 st2 h)

theorem bfsLoop_struct {t : Nat} :
    ∀ (fuel : Nat) (q : List Nat) (st : Store) (r : Int) (st2 : Store),
      bfsLoop t fuel q st = some (r, st2) → sameStruct st st2 := by
  intro fuel
  induction fuel with
  | zero =>
    intro q st r st2 h
    cases q with
    | nil =>
      simp only [bfsLoop] at h
      cases h
      exact sameStruct_refl st
    | cons a q0 => exact Option.noConfusion h
  | succ fuel ih =>
    intro q st r st2 h
    cases q with
    | nil =>
      simp only [bfsLoop] at h
      cases h
      exact sameStruct_refl st
    | cons a q0 =>
      simp only [bfsLoop] at h
      cases hp : procMovies st q0 t (levelI st a) (moviesOf st a) with
      | inl r' =>
        rw [hp] at h
        cases h
        exact procMovies_struct _ st q0 _ (Or.inl ⟨_, hp⟩)
      | inr p =>
        rw [hp] at h
        exact sameStruct_trans
          (procMovies_struct _ st q0 p.1 (Or.inr ⟨p.2, by rw [hp]⟩))
          (ih p.2 p.1 r st2 h)

theorem BFS_struct {st : Store} {s t : Nat} {r : Int} {st2 : Store}
    (h : BFS st s t = some (r, st2)) : sameStruct st st2 := by
  unfold BFS at h
  by_cases hst : s = t
  · rw [if_pos hst] at h
    cases h
    exact sameStruct_refl st
  · rw [if_neg hst] at h
    exact sameStruct_trans
      (sameStruct_trans (resetAll_sameStruct st)
        (markActor_sameStruct (resetAll st) s 0))
      (bfsLoop_struct _ _ _ r st2 h)

/-- BFS with distinct endpoints reads only the graph structure: its
result is the same on any two stores that differ only in visited/level
state, because the full reset erases that state first. -/
theorem BFS_congr {st st' : Store} (h : sameStruct st st') (s t : Nat)
    (hne : s ≠ t) : BFS st s t = BFS st' s t := by
  unfold BFS
  rw [if_neg hne, if_neg hne]
  rw [sameStruct_resetAll_eq h, sameStruct_length h]

theorem isolated_no_adj : ∀ c j : Nat, ¬ adj isolatedStore c j := by
  intro c j h
  obtain ⟨-, m, hm, -⟩ := h
  have hmov : moviesOf isolatedStore c = [] := by
    unfold moviesOf
    cases hg : isolatedStore.actors.get? c with
    | none => simp
    | some a =>
      have ha := List.get?_mem hg
      have : a ∈ isolatedStore.actors := ha
      simp only [isolatedStore, List.mem_cons, List.mem_singleton] at this
      rcases this with he | he | he
      · subst he; rfl
      · subst he; rfl
      · simp at he
  rw [hmov] at hm
  simp at hm

theorem isolated_no_path : ∀ k : Nat, ¬ pathN isolatedStore k 0 1 := by
  intro k hp
  cases k with
  | zero =>
    rw [pathN_zero] at hp
    exact absurd hp (by decide)
  | succ n =>
    rw [pathN_succ] at hp
    obtain ⟨c, -, hadj⟩ := hp
    exact isolated_no_adj c 1 hadj

/-- C1: for anchor and target present in the graph and linked by at
least one shared-movie walk, BFS returns exactly the length of the
shortest such walk: the level at which the level-by-level FIFO traversal
first discovers the target is the true shortest distance. -/
theorem c1_bfs_shortest_distance {st : Store} {s t : Nat}
    (hs : s < st.actors.length) (ht : t < st.actors.length)
    (hreach : ∃ k, pathN st k s t) :
    ∃ (d : Nat) (st2 : Store), BFS st s t = some ((d : Int), st2) ∧ isDist st s t d := by
  by_cases hst : s = t
  · subst hst
    refine ⟨0, st, by simp [BFS], ?_, fun j _ => Nat.zero_le j⟩
    rw [pathN_zero]
  · obtain ⟨r, st2, heq, -, hdisj⟩ := BFS_correct hs ht hst
    rcases hdisj with ⟨-, hnp⟩ | ⟨d, hr, hd⟩
    · obtain ⟨k, hk⟩ := hreach
      exact absurd hk (hnp k)
    · subst hr
      exact ⟨d, st2, heq, hd⟩

theorem c1_witness :
    ∃ (d : Nat) (st2 : Store),
      BFS twoActorStore 0 1 = some ((d : Int), st2) ∧ isDist twoActorStore 0 1 d :=
  c1_bfs_shortest_distance (by decide) (by decide) ⟨1, 0, rfl, by decide⟩

/-- C2: BFS applied to identical endpoints (pointer identity in the C
code, index identity here) returns 0 at once, leaving every actor's
visited and level fields untouched. -/
theorem c2_bfs_self_zero (st : Store) (a : Nat) : BFS st a a = some (0, st) := by
  simp [BFS]

/-- C3: for valid endpoints with no shared-movie walk between them, BFS
drains its queue and returns the sentinel -1, which the query driver
renders as the "Score: No Bacon!" line, a normal outcome rather than an
error. -/
theorem c3_bfs_unreachable_noBacon {st : Store} {s t : Nat}
    (hs : s < st.actors.length) (ht : t < st.actors.length)
    (hnp : ∀ k, ¬ pathN st k s t) :
    ∃ st2, BFS st s t = some (-1, st2) ∧
      ∀ nm, findActor st nm = some t → findActor st kevinBacon = some s →
        processQuery st nm = some (QueryOut.noBacon, st2) := by
  have hst : s ≠ t := by
    intro he
    subst he
    exact hnp 0 rfl
  obtain ⟨r, st2, heq, -, hdisj⟩ := BFS_correct hs ht hst
  rcases hdisj with ⟨hr, -⟩ | ⟨d, hr, hd, -⟩
  · subst hr
    refine ⟨st2, heq, ?_⟩
    intro nm h1 h2
    simp only [processQuery, h1, h2, heq]
    simp
  · exact absurd hd (hnp d)

theorem c3_witness :
    ∃ st2, BFS isolatedStore 0 1 = some (-1, st2) ∧
      ∀ nm, findActor isolatedStore nm = some 1 →
        findActor isolatedStore kevinBacon = some 0 →
        processQuery isolatedStore nm = some (QueryOut.noBacon, st2) :=
  c3_bfs_unreachable_noBacon (by decide) (by decide) isolated_no_path

/-- C4: the dataset "Movie: M" / "A" / "A" makes addActorToMovie append
a second cast entry for the same actor name: the dedup walk exits at the
last cast node without comparing it, contradicting the function's stated
guarantee that no duplicate actors are added. -/
theorem c4_duplicate_cast_entry :
    parseFile dupLines = some dupStore ∧
    castOf dupStore 0 = [0, 0] ∧
    actorNameAt dupStore 0 = "A".data := by decide

/-- C5 as claimed is false: on the same input the movie (index 0) is
appended a second time to actor A's membership list even though it is
already present, because addMovieToActorsMovies performs no duplicate
check. -/
theorem c5_counterexample :
    parseFile dupLines = some dupStore ∧
    moviesOf dupStore 0 = [0, 0] := by decide

/-- C5 amended: re-encountering a name does reuse the existing entity
(actor names stay unique in the store) and the link is present in both
directions; but the parser does not suppress a duplicate membership
entry when the same actor name recurs within one movie block. -/
theorem c5_store_invariants {lines : List (List Char)} {st : Store}
    (h : parseFile lines = some st) :
    (st.actors.map ActorN.actorName).Nodup ∧
    (∀ a m, m ∈ moviesOf st a ↔ a ∈ castOf st m) := by
  have W := parseFile_wf h
  exact ⟨W.nodupNames, fun a m => ⟨W.memCast a m, W.memMovies a m⟩⟩

theorem c5_witness :
    (twoActorStore.actors.map ActorN.actorName).Nodup ∧
    (∀ a m, m ∈ moviesOf twoActorStore a ↔ a ∈ castOf twoActorStore m) :=
  c5_store_invariants (by decide : parseFile twoActorLines = some twoActorStore)

/-- C6: on any parsed store, for valid mutually reachable endpoints the
BFS distance does not depend on which endpoint is the anchor, because
the shared-movie relation of a parsed store is symmetric. -/
theorem c6_bfs_symmetric {lines : List (List Char)} {st : Store}
    (hp : parseFile lines = some st) {a b : Nat}
    (ha : a < st.actors.length) (hb : b < st.actors.length)
    (hreach : ∃ k, pathN st k a b) :
    ∃ (d : Int) (st1 st2 : Store),
      BFS st a b = some (d, st1) ∧ BFS st b a = some (d, st2) := by
  have W := parseFile_wf hp
  have hsym : ∀ i j, adj st i j → adj st j i := fun i j => adj_symm_of_wf W
  by_cases hab : a = b
  · subst hab
    exact ⟨0, st, st, by simp [BFS], by simp [BFS]⟩
  · obtain ⟨k, hk⟩ := hreach
    obtain ⟨r1, st1, heq1, -, hd1⟩ := BFS_correct ha hb hab
    obtain ⟨r2, st2, heq2, -, hd2⟩ := BFS_correct hb ha (Ne.symm hab)
    rcases hd1 with ⟨-, hnp⟩ | ⟨d1, hr1, hpath1, hmin1⟩
    · exact absurd hk (hnp k)
    rcases hd2 with ⟨-, hnp⟩ | ⟨d2, hr2, hpath2, hmin2⟩
    · exact absurd (pathN_symm hsym hk) (hnp k)
    have hd12 : d1 = d2 :=
      Nat.le_antisymm (hmin1 d2 (pathN_symm hsym hpath2)) (hmin2 d1 (pathN_symm hsym hpath1))
    subst hd12
    subst hr1
    subst hr2
    exact ⟨(d1 : Int), st1, st2, heq1, heq2⟩

theorem c6_witness :
    ∃ (d : Int) (st1 st2 : Store),
      BFS twoActorStore 0 1 = some (d, st1) ∧ BFS twoActorStore 1 0 = some (d, st2) :=
  c6_bfs_symmetric (by decide : parseFile twoActorLines = some twoActorStore)
    (by decide) (by decide) ⟨1, 0, rfl, by decide⟩

/-- C7: a non-blank line is classified as a movie header exactly when it
contains a ':' anywhere; and for a header line split at its first ':'
(with at least one character after the colon, as the
one-space-after-delimiter format guarantees) the extracted title is
exactly the substring beginning two characters after that ':'. -/
theorem c7_header_classification_and_title (l pre suf : List Char) :
    (containsMovie l = true ↔ ':' ∈ l) ∧
    (l = pre ++ ':' :: suf → ':' ∉ pre → suf ≠ [] → findMovie l = suf.drop 1) := by
  constructor
  · unfold containsMovie
    rw [List.any_eq_true]
    constructor
    · rintro ⟨x, hx, he⟩
      rw [beq_iff_eq] at he
      subst he
      exact hx
    · intro h
      exact ⟨':', h, by simp⟩
  · intro hl hpre hsuf
    subst hl
    unfold findMovie
    have hdw : ∀ (p : List Char) (r : List Char), (∀ x ∈ p, (x != ':') = true) →
        List.dropWhile (fun c => c != ':') (p ++ r) =
        List.dropWhile (fun c => c != ':') r := by
      intro p
      induction p with
      | nil => intro r _; rfl
      | cons x xs ih =>
        intro r hall
        rw [List.cons_append, List.dropWhile_cons, if_pos (hall x (List.mem_cons_self x xs))]
        exact ih r (fun y hy => hall y (List.mem_cons_of_mem x hy))
    rw [hdw pre (':' :: suf) (fun x hx => by
      rw [bne_iff_ne]
      intro he
      subst he
      exact hpre hx)]
    rw [List.dropWhile_cons, if_neg (by simp)]
    rfl

theorem c7_witness : findMovie "Movie: Apollo 13".data = (" Apollo 13".data).drop 1 :=
  (c7_header_classification_and_title "Movie: Apollo 13".data "Movie".data
    " Apollo 13".data).2 (by decide) (by decide) (by decide)

/-- C8 as claimed is false at a concrete input: with the anchor "Kevin
Bacon" absent from the graph, a query for a name that is also absent
produces the resolution error (stderr), not the "Score: No Bacon!"
line: main checks the queried name before checking for the anchor. -/
theorem c8_counterexample :
    findActor noBaconStore kevinBacon = none ∧
    processQuery noBaconStore "B".data = some (QueryOut.err, noBaconStore) ∧
    QueryOut.err ≠ QueryOut.noBacon := by decide

/-- C8 amended: when the anchor is absent, every query whose target DOES
resolve in the graph prints "Score: No Bacon!" and leaves the store
untouched (BFS is never invoked); a query whose target does not resolve
reports the resolution error instead. -/
theorem c8_no_anchor_shortcircuit {st : Store} {nm : List Char} {t : Nat}
    (hb : findActor st kevinBacon = none) (ht : findActor st nm = some t) :
    processQuery st nm = some (QueryOut.noBacon, st) := by
  simp only [processQuery, hb, ht]

theorem c8_witness : processQuery noBaconStore "A".data = some (QueryOut.noBacon, noBaconStore) :=
  c8_no_anchor_shortcircuit (by decide)
    (by decide : findActor noBaconStore (String.data "A") = some 0)

/-- C9: for anchor distinct from target, BFS performs the full reset
first (the state it searches from is markActor (resetAll st) s 0, and
resetAll sets every actor's visited to false and level to -1), so no
search state leaks between queries, and re-running the same query on the
state a previous run left behind returns the identical result. -/
theorem c9_reset_and_query_independence {st : Store} {s t : Nat} (hst : s ≠ t) :
    (∀ x ∈ (resetAll st).actors, x.visited = false ∧ x.level = -1) ∧
    BFS st s t = bfsLoop t st.actors.length [s] (markActor (resetAll st) s 0) ∧
    (∀ (r : Int) (st2 : Store), BFS st s t = some (r, st2) →
      BFS st2 s t = some (r, st2)) := by
  refine ⟨?_, ?_, ?_⟩
  · intro x hx
    have hx' : x ∈ st.actors.map (fun a => { a with visited := false, level := -1 }) := hx
    rw [List.mem_map] at hx'
    obtain ⟨a, -, he⟩ := hx'
    rw [← he]
    exact ⟨rfl, rfl⟩
  · unfold BFS
    rw [if_neg hst]
  · intro r st2 h
    rw [← BFS_congr (BFS_struct h) s t hst]
    exact h

theorem c9_witness :
    (∀ x ∈ (resetAll twoActorStore).actors, x.visited = false ∧ x.level = -1) ∧
    BFS twoActorStore 0 1 =
      bfsLoop 1 twoActorStore.actors.length [0] (markActor (resetAll twoActorStore) 0 0) ∧
    (∀ (r : Int) (st2 : Store), BFS twoActorStore 0 1 = some (r, st2) →
      BFS st2 0 1 = some (r, st2)) :=
  c9_reset_and_query_independence (by decide)

/-- C10: BFS always terminates on a valid start actor: an actor is
marked visited before it is enqueued and only unvisited actors are ever
enqueued, so the model's fuel of one unit per actor is never exhausted
(bfsLoop never returns the fuel-out value none). -/
theorem c10_bfs_terminates {st : Store} {s : Nat} (t : Nat)
    (hs : s < st.actors.length) : (BFS st s t).isSome :=
  BFS_isSome t hs

theorem c10_witness : (BFS twoActorStore 0 1).isSome :=
  c10_bfs_terminates 1 (by decide)
